import Mathlib

/-!
Shallow embedding of the instrument-control kernel of SIMS-RF-Control:
the step-sweep / polling scheduler of 能散测量控制软件/main_windows.py,
the addressed power-supply proxy of 电源与电流表联合控制/TDK_Control.py,
the SCPI line codec of SCPI.py, and the bus-lock serialization discipline.
Real numbers of the Python source are modelled as exact rationals.
-/

namespace SweepSched

/-- Floating tolerance used by the sweep thread (source: eps = 1e-12). -/
def eps : ℚ := 1 / 1000000000000

/-- Loop guard of the sweep thread: (ascending and volt > stop + eps) or
(not ascending and volt < stop - eps). -/
def outOfRange (stop : ℚ) (asc : Bool) (volt : ℚ) : Bool :=
  if asc then decide (stop + eps < volt) else decide (volt < stop - eps)

/-- Next voltage: next_vol = volt + step, clamped to stop when the raw value
would overshoot in the sweep direction. -/
def clampNext (stop step : ℚ) (asc : Bool) (volt : ℚ) : ℚ :=
  let next := volt + step
  if asc then (if stop < next then stop else next)
  else (if next < stop then stop else next)

/-- Python abs on the exact rational value, written so that it evaluates by
kernel reduction. -/
def qabs (x : ℚ) : ℚ := if x < 0 then -x else x

/-- Outcome of the mid-step measurement retry loop. -/
inductive RetryOut where
  | ok (v : ℚ)
  | cancelled
  | exhausted
deriving DecidableEq, Repr

/-- Measurement retry loop of the sweep thread: while mid_cur is None and the
stop event is not set, measure; count failures in mid_attempts and break once
mid_attempts reaches 10.  The cancellation flag is read at successive check
indices; the returned number is the next unused check index.  The structural
fuel argument is always instantiated with 10 - attempts, which the attempt
bound makes sufficient. -/
def retryMeasure (cancel : ℕ → Bool) (meas : ℕ → Option ℚ) :
    ℕ → ℕ → ℕ → RetryOut × ℕ
  | _, 0, c => (RetryOut.exhausted, c)
  | attempts, Nat.succ fuel, c =>
    if cancel c then (RetryOut.cancelled, c + 1)
    else
      match meas attempts with
      | some v => (RetryOut.ok v, c + 1)
      | none =>
        if 10 ≤ attempts + 1 then (RetryOut.exhausted, c + 1)
        else retryMeasure cancel meas (attempts + 1) fuel (c + 1)

/-- How the sweep loop exits: guard or stop-value reached (completed), stop
event observed (cancelled), measurement retries exhausted (measureFail), or
the modelling fuel ran out before the loop exited (fuelOut). -/
inductive SweepExit where
  | completed
  | cancelled
  | measureFail
  | fuelOut
deriving DecidableEq, Repr

/-- Observable result of a sweep-thread run: the voltages commanded through
set_voltage in order, the (voltage, current) samples emitted in order, and
how the loop exited. -/
structure SweepResult where
  commanded : List ℚ
  samples : List (ℚ × ℚ)
  exit : SweepExit
deriving DecidableEq, Repr

/-- Body of _step_and_measure_thread of 能散测量控制软件/main_windows.py.
Per iteration: range guard, stop-flag check, set_voltage volt, the mid-hold
wait (a flag check), another flag check, the measurement retry loop, sample
emission, the remainder-of-hold wait (a flag check, modelled as always
occurring, i.e. the hold time exceeds the settle and measurement time),
computation of the clamped next voltage, and the terminal check
abs(volt - stop) <= eps.  cancel gives the stop-event value at successive
check indices, meas k a the result of measure attempt a at step k, and fuel
bounds the modelled number of iterations. -/
def sweepLoop (cancel : ℕ → Bool) (meas : ℕ → ℕ → Option ℚ) (stop step : ℚ)
    (asc : Bool) : ℕ → ℕ → ℕ → ℚ → SweepResult
  | 0, _, _, _ => ⟨[], [], SweepExit.fuelOut⟩
  | Nat.succ fuel, k, c, volt =>
    if outOfRange stop asc volt then ⟨[], [], SweepExit.completed⟩
    else if cancel c then ⟨[], [], SweepExit.cancelled⟩
    else if cancel (c + 1) then ⟨[volt], [], SweepExit.cancelled⟩
    else if cancel (c + 2) then ⟨[volt], [], SweepExit.cancelled⟩
    else
      match retryMeasure cancel (meas k) 0 10 (c + 3) with
      | (RetryOut.cancelled, _) => ⟨[volt], [], SweepExit.cancelled⟩
      | (RetryOut.exhausted, _) => ⟨[volt], [], SweepExit.measureFail⟩
      | (RetryOut.ok cur, c2) =>
        if cancel c2 then ⟨[volt], [(volt, cur)], SweepExit.cancelled⟩
        else
          let next := clampNext stop step asc volt
          if qabs (volt - stop) ≤ eps then
            ⟨[volt], [(volt, cur)], SweepExit.completed⟩
          else
            let r := sweepLoop cancel meas stop step asc fuel (k + 1) (c2 + 1) next
            ⟨volt :: r.commanded, (volt, cur) :: r.samples, r.exit⟩

/-- Entry point of the sweep thread: volt starts at start and ascending is
step > 0. -/
def step_and_measure_thread (cancel : ℕ → Bool) (meas : ℕ → ℕ → Option ℚ)
    (start stop step : ℚ) (fuel : ℕ) : SweepResult :=
  sweepLoop cancel meas stop step (decide (0 < step)) fuel 0 0 start

/-- Acceptance and dispatch in start_step_and_measure: the job is rejected
(result none, no sweep thread started and no device command issued) exactly
when (stop - start) * step < 0; otherwise the thread is started on the job
(result some).  In the energy-scan variant start is first obtained by a
voltage query; the present model takes the assembled job as input, as the
power-supply variant does. -/
def start_step_and_measure (start stop step hold : ℚ) :
    Option (ℚ × ℚ × ℚ × ℚ) :=
  if (stop - start) * step < 0 then none else some (start, stop, step, hold)

/-- Body of _measure_loop (fixed-interval poll): up to steps iterations, each
checking the combined stop flags, taking one measurement (current and actual
voltage, either possibly absent) and emitting it, then waiting the interval
with a further flag check. -/
def measure_loop (cancel : ℕ → Bool) (meas : ℕ → Option ℚ × Option ℚ) :
    ℕ → ℕ → ℕ → List (Option ℚ × Option ℚ)
  | 0, _, _ => []
  | Nat.succ steps, i, c =>
    if cancel c then []
    else
      (meas i) ::
        (if cancel (c + 1) then [] else measure_loop cancel meas steps (i + 1) (c + 2))

/-- Sign of a rational, as the integer -1, 0 or 1. -/
def qsign (x : ℚ) : ℤ :=
  if x < 0 then -1 else if 0 < x then 1 else 0

/-- Cancellation flag that is never set. -/
def noCancel : ℕ → Bool := fun _ => false

/-- Cancellation flag that is set from the outset. -/
def allCancel : ℕ → Bool := fun _ => true

/-- Measurement oracle that always succeeds, returning cur k at step k. -/
def measOK (cur : ℕ → ℚ) : ℕ → ℕ → Option ℚ := fun k _ => some (cur k)

end SweepSched

/-- Line terminator of the SCPI wire protocol. -/
def nl : String := "\n"

/-- The empty response string. -/
def emptyStr : String := ""

/-- Python str.strip: remove leading and trailing whitespace (space, tab,
carriage return, line feed; Python strips a couple of further control
characters that never occur here).  Written over the character list so that
it evaluates by kernel reduction. -/
def pyStrip (s : String) : String :=
  String.mk
    (((s.data.dropWhile Char.isWhitespace).reverse.dropWhile
      Char.isWhitespace).reverse)

namespace TDK

/-- Device-select frame written before every command:
INSTrument:NSELect address, line-terminated (integer printed as Python str). -/
def selectFrame (a : ℤ) : String := ("INSTrument:NSELect ") ++ toString a ++ nl

/-- Command frame: the command text followed by one line terminator. -/
def commandFrame (c : String) : String := c ++ nl

/-- State of the shared serial transport as one send_command call sees it:
whether the port is open, whether the write raises an exception (modelled at
the first write, before anything durable is written), and the raw data that
self.serial.in_waiting exposes within the first and the second wait window
(none when no data arrived in that window). -/
structure SerialPort where
  is_open : Bool
  writeFault : Bool
  firstWait : Option String
  secondWait : Option String

/-- bytes.decode with errors ignore: non-ASCII code points are dropped. -/
def asciiIgnore (s : String) : String :=
  String.mk (s.data.filter (fun ch => ch.toNat < 128))

/-- TDKPowerSupply.send_command: returns the frames written to the transport
and the response (none models the Python None result: port not open, or the
exception branch; some models a returned string, the empty string standing
for the no-data-within-both-waits branch).  On success exactly two frames
are written: the address-select frame, then the command frame. -/
def send_command (p : SerialPort) (a : ℤ) (command : String)
    (get_response : Bool) : List String × Option String :=
  if p.is_open = false then ([], none)
  else if p.writeFault then ([], none)
  else
    let writes := [selectFrame a, commandFrame command]
    if get_response then
      match p.firstWait with
      | some raw => (writes, some (pyStrip (asciiIgnore raw)))
      | none =>
        match p.secondWait with
        | some raw => (writes, some (pyStrip (asciiIgnore raw)))
        | none => (writes, some emptyStr)
    else (writes, none)

/-- Round to the nearest integer, ties to even (the rounding of Python float
formatting, applied here to the exact rational value). -/
def roundHalfEven (q : ℚ) : ℤ :=
  let f := ⌊q⌋
  let r := q - f
  if r < 1 / 2 then f
  else if 1 / 2 < r then f + 1
  else if f % 2 = 0 then f else f + 1

/-- Python format specifier .3f on the exact rational value: round to three
decimals, print sign, integer part, a point, and exactly three fraction
digits (signed float zero is not modelled). -/
def formatFixed3 (v : ℚ) : String :=
  let n := roundHalfEven (v * 1000)
  let m := n.natAbs
  let frac := String.mk
    [Nat.digitChar (m % 1000 / 100), Nat.digitChar (m % 1000 / 10 % 10),
     Nat.digitChar (m % 1000 % 10)]
  let core := toString (m / 1000) ++ (".") ++ frac
  if n < 0 then ("-") ++ core else core

/-- Command text built by set_voltage. -/
def voltAmplCmd (v : ℚ) : String := ("VOLT:AMPL ") ++ formatFixed3 v

/-- Command text built by set_current. -/
def currAmplCmd (i : ℚ) : String := ("CURR:AMPL ") ++ formatFixed3 i

/-- Command text built by set_output. -/
def outpStatCmd (state : Bool) : String :=
  ("OUTP:STAT ") ++ (if state then ("1") else ("0"))

/-- Query text of get_actual_voltage. -/
def measVoltCmd : String := "MEAS:VOLT?"

/-- Query text of get_actual_current. -/
def measCurrCmd : String := "MEAS:CURR?"

/-- Longest leading run of decimal digits of a character list, and the rest. -/
def takeDigits : List Char → List Char × List Char
  | [] => ([], [])
  | ch :: cs =>
    if ch.isDigit then
      let r := takeDigits cs
      (ch :: r.1, r.2)
    else ([], ch :: cs)

/-- Numeric value of a list of decimal digit characters. -/
def digitsVal (l : List Char) : ℕ :=
  l.foldl (fun acc ch => acc * 10 + (ch.toNat - 48)) 0

/-- Core of the Python float() literal parser on a stripped character list:
optional sign, integer digits, optional point and fraction digits (at least
one digit overall), optional exponent.  inf, nan and digit-group
underscores are not modelled; on any other malformed input the result is
none, which models the ValueError branch. -/
def pyFloatCore (cs0 : List Char) : Option ℚ :=
  let sgn : ℚ × List Char :=
    match cs0 with
    | '+' :: r => (1, r)
    | '-' :: r => (-1, r)
    | r => (1, r)
  let ip := takeDigits sgn.2
  let fp : List Char × List Char :=
    match ip.2 with
    | '.' :: r => takeDigits r
    | r => ([], r)
  if ip.1 = [] ∧ fp.1 = [] then none
  else
    let mant : ℚ := (digitsVal ip.1 : ℚ) + (digitsVal fp.1 : ℚ) / 10 ^ fp.1.length
    match fp.2 with
    | [] => some (sgn.1 * mant)
    | 'e' :: r | 'E' :: r =>
      let esgn : ℤ × List Char :=
        match r with
        | '+' :: r2 => (1, r2)
        | '-' :: r2 => (-1, r2)
        | r2 => (1, r2)
      let ed := takeDigits esgn.2
      if ed.1 = [] ∨ ed.2 ≠ [] then none
      else some (sgn.1 * mant * (10 : ℚ) ^ (esgn.1 * (digitsVal ed.1 : ℤ)))
    | _ => none

/-- Python float() applied to a response string (float also strips
surrounding whitespace); none models the raised ValueError. -/
def pyFloat (s : String) : Option ℚ := pyFloatCore (pyStrip s).data

/-- TDKPowerSupply.get_actual_voltage: send the measurement query; on a None
or empty response return None, otherwise parse as float, returning None on a
parse failure (the logged ValueError). -/
def get_actual_voltage (p : SerialPort) (a : ℤ) : Option ℚ :=
  match (send_command p a measVoltCmd true).2 with
  | none => none
  | some r => if r = emptyStr then none else pyFloat r

/-- TDKPowerSupply.get_actual_current, same shape as get_actual_voltage. -/
def get_actual_current (p : SerialPort) (a : ℤ) : Option ℚ :=
  match (send_command p a measCurrCmd true).2 with
  | none => none
  | some r => if r = emptyStr then none else pyFloat r

/-- TDKPowerSupply.set_voltage: format the command, call send_command with
get_response False and ignore its result, then return True; the except
branch is unreachable because send_command absorbs every transport fault. -/
def set_voltage (p : SerialPort) (a : ℤ) (v : ℚ) : Bool :=
  let _ := send_command p a (voltAmplCmd v) false
  true

/-- TDKPowerSupply.set_current, same shape as set_voltage. -/
def set_current (p : SerialPort) (a : ℤ) (i : ℚ) : Bool :=
  let _ := send_command p a (currAmplCmd i) false
  true

/-- TDKPowerSupply.set_output, same shape as set_voltage. -/
def set_output (p : SerialPort) (a : ℤ) (state : Bool) : Bool :=
  let _ := send_command p a (outpStatCmd state) false
  true

end TDK

namespace SCPI

/-- Framing done by SCPI_Controller.send_command before encoding: append one
line terminator unless the command already endswith the one-character
terminator (endswith is modelled on the last character). -/
def send_command_frame (command : String) : String :=
  if command.data.getLast? = some ('\n') then command else command ++ nl

/-- Decoding done by SCPI_Controller.read_response on the raw line: ascii
decode then str.strip, removing the terminator and surrounding whitespace. -/
def read_response_decode (raw : String) : String := pyStrip raw

end SCPI

namespace Bus

/-- Transport-relevant actions of one TDKPowerSupply.send_command call:
acquiring the class-level serial lock, writing one frame, releasing. -/
inductive Act where
  | acquire
  | wr (frame : String)
  | release
deriving DecidableEq

/-- Sequence of transport actions performed by send_command for the proxy at
address a sending command c (flushes, sleeps and reads write nothing). -/
def sendProg (a : ℤ) (c : String) : List Act :=
  [Act.acquire, Act.wr (TDK.selectFrame a), Act.wr (TDK.commandFrame c),
   Act.release]

/-- Interleaved-execution configuration for two proxy threads (named by a
Bool) sharing one transport: the holder of the class-level lock, the
remaining actions of thread true and of thread false, and the frames
written so far as the transport observes them, tagged with the writing
thread. -/
structure Conf where
  lock : Option Bool
  progT : List Act
  progF : List Act
  trace : List (Bool × String)
deriving DecidableEq

/-- Remaining program of one thread. -/
def progOf (s : Conf) (t : Bool) : List Act :=
  bif t then s.progT else s.progF

/-- Program update for one thread. -/
def setProg (s : Conf) (t : Bool) (rest : List Act) : Conf :=
  bif t then { s with progT := rest } else { s with progF := rest }

/-- One interleaving step: some thread performs its next action; acquire
requires the lock to be free, release requires holding it, a write appends
the frame to the transport trace. -/
inductive Step : Conf → Conf → Prop where
  | acq (s : Conf) (t : Bool) (rest : List Act) :
      progOf s t = Act.acquire :: rest → s.lock = none →
      Step s (setProg { s with lock := some t } t rest)
  | wr (s : Conf) (t : Bool) (f : String) (rest : List Act) :
      progOf s t = Act.wr f :: rest →
      Step s (setProg { s with trace := s.trace ++ [(t, f)] } t rest)
  | rel (s : Conf) (t : Bool) (rest : List Act) :
      progOf s t = Act.release :: rest → s.lock = some t →
      Step s (setProg { s with lock := none } t rest)

/-- Initial configuration: lock free, both sends pending, nothing written. -/
def init (addr : Bool → ℤ) (cmd : Bool → String) : Conf :=
  ⟨none, sendProg (addr true) (cmd true), sendProg (addr false) (cmd false),
    []⟩

/-- Reachability from the initial configuration. -/
def Reach (addr : Bool → ℤ) (cmd : Bool → String) (s : Conf) : Prop :=
  Relation.ReflTransGen Step (init addr cmd) s

/-- The contiguous select-then-command write block of thread t. -/
def blockOf (addr : Bool → ℤ) (cmd : Bool → String) (t : Bool) :
    List (Bool × String) :=
  [(t, TDK.selectFrame (addr t)), (t, TDK.commandFrame (cmd t))]

/-- Program suffix after acquiring the lock. -/
def tail1 (a : ℤ) (c : String) : List Act :=
  [Act.wr (TDK.selectFrame a), Act.wr (TDK.commandFrame c), Act.release]

/-- Program suffix after writing the select frame. -/
def tail2 (c : String) : List Act :=
  [Act.wr (TDK.commandFrame c), Act.release]

/-- Program suffix after writing the command frame. -/
def tail3 : List Act := [Act.release]

/-- Reachability invariant: some order doneSeq of the threads that have
completed their send; the trace is their blocks in that order, followed by
the partial writes of the current lock holder, whose remaining program
fixes how much of its block it has written; every thread neither done nor
holding the lock has not started. -/
def Inv (addr : Bool → ℤ) (cmd : Bool → String) (s : Conf) : Prop :=
  ∃ doneSeq : List Bool,
    doneSeq.Nodup ∧
    (∀ t, (t ∈ doneSeq ↔ progOf s t = [])) ∧
    ((s.lock = none ∧
        (∀ t, progOf s t = [] ∨ progOf s t = sendProg (addr t) (cmd t)) ∧
        s.trace = (doneSeq.map (blockOf addr cmd)).flatten) ∨
      (∃ t, s.lock = some t ∧
        (progOf s (!t) = [] ∨
          progOf s (!t) = sendProg (addr (!t)) (cmd (!t))) ∧
        ((progOf s t = tail1 (addr t) (cmd t) ∧
            s.trace = (doneSeq.map (blockOf addr cmd)).flatten) ∨
          (progOf s t = tail2 (cmd t) ∧
            s.trace = (doneSeq.map (blockOf addr cmd)).flatten ++
              [(t, TDK.selectFrame (addr t))]) ∨
          (progOf s t = tail3 ∧
            s.trace = (doneSeq.map (blockOf addr cmd)).flatten ++
              blockOf addr cmd t))))

/-- Example pair of proxies: addresses 6 and 7, an identity query and a
voltage query. -/
def addrW : Bool → ℤ := fun t => bif t then 6 else 7

/-- Commands of the example pair of proxies. -/
def cmdW : Bool → String := fun t => bif t then ("*IDN?") else ("MEAS:VOLT?")

/-- Final configuration of the example run where thread true completes its
send and then thread false completes its own. -/
def confW : Conf :=
  ⟨none, [], [], blockOf addrW cmdW true ++ blockOf addrW cmdW false⟩

end Bus

/-! Theorems.  First the sweep scheduler. -/

namespace SweepSched

lemma eps_pos : (0 : ℚ) < eps := by norm_num [eps]

lemma qabs_eq_abs (x : ℚ) : qabs x = |x| := by
  unfold qabs
  rcases lt_or_le x 0 with h | h
  · rw [if_pos h, abs_of_neg h]
  · rw [if_neg (not_lt.mpr h), abs_of_nonneg h]

lemma retryMeasure_first_ok (cancel : ℕ → Bool) (meas : ℕ → Option ℚ)
    (v : ℚ) (c : ℕ) (hc : cancel c = false) (h : meas 0 = some v) :
    retryMeasure cancel meas 0 10 c = (RetryOut.ok v, c + 1) := by
  show retryMeasure cancel meas 0 (Nat.succ 9) c = _
  simp [retryMeasure, hc, h]

lemma sweepLoop_noCancel_succ (cur : ℕ → ℚ) (stop step : ℚ) (asc : Bool)
    (fuel k c : ℕ) (volt : ℚ) :
    sweepLoop noCancel (measOK cur) stop step asc (fuel + 1) k c volt =
      if outOfRange stop asc volt then ⟨[], [], SweepExit.completed⟩
      else if qabs (volt - stop) ≤ eps then
        ⟨[volt], [(volt, cur k)], SweepExit.completed⟩
      else
        let r := sweepLoop noCancel (measOK cur) stop step asc fuel (k + 1)
          (c + 5) (clampNext stop step asc volt)
        ⟨volt :: r.commanded, (volt, cur k) :: r.samples, r.exit⟩ := by
  have hr := retryMeasure_first_ok noCancel (measOK cur k) (cur k) (c + 3)
    rfl rfl
  by_cases hg : outOfRange stop asc volt
  · simp [sweepLoop, hg]
  · by_cases hend : qabs (volt - stop) ≤ eps
    · simp [sweepLoop, hg, noCancel, hr, hend]
    · simp only [sweepLoop, hg, noCancel, Bool.false_eq_true, if_false, hr,
        hend]

lemma sweepLoop_completes (stop step : ℚ) (cur : ℕ → ℚ) (hstep : step ≠ 0) :
    ∀ (fuel k c : ℕ) (volt : ℚ), 0 ≤ (stop - volt) * step →
      (stop - volt) * step + step ^ 2 ≤ (fuel : ℚ) * step ^ 2 →
      ∃ l s,
        sweepLoop noCancel (measOK cur) stop step (decide (0 < step)) fuel
            k c volt = ⟨l, s, SweepExit.completed⟩ ∧
          List.map Prod.fst s = l ∧
          l.head? = some volt ∧
          List.Chain' (fun a b =>
            b = clampNext stop step (decide (0 < step)) a ∧
              0 < (b - a) * step) l ∧
          (∃ w, l.getLast? = some w ∧ |w - stop| ≤ eps) ∧
          (∀ v ∈ l, 0 ≤ (stop - v) * step) := by
  intro fuel
  induction fuel with
  | zero =>
    intro k c volt h0 hf
    exfalso
    have hsq : (0 : ℚ) < step ^ 2 := by positivity
    push_cast at hf
    nlinarith
  | succ fuel ih =>
    intro k c volt h0 hf
    have hsq : (0 : ℚ) < step ^ 2 := by positivity
    have heps := eps_pos
    push_cast at hf
    rcases hstep.lt_or_lt with hneg | hpos
    · -- descending sweep: step < 0
      have hd : decide (0 < step) = false := decide_eq_false (by linarith)
      rw [hd] at ih ⊢
      have hvs : stop ≤ volt := by nlinarith
      have hguard : outOfRange stop false volt = false := by
        simp only [outOfRange, if_false, Bool.false_eq_true,
          decide_eq_false_iff_not, not_lt]
        linarith
      by_cases hend : qabs (volt - stop) ≤ eps
      · refine ⟨[volt], [(volt, cur k)], ?_, by simp, rfl, by simp,
          ⟨volt, rfl, (qabs_eq_abs (volt - stop)) ▸ hend⟩, ?_⟩
        · rw [sweepLoop_noCancel_succ]
          simp [hguard, hend]
        · intro v hv
          rcases List.mem_singleton.mp hv with rfl
          exact h0
      · have habs : eps < volt - stop := by
          rw [qabs_eq_abs, abs_of_nonneg (by linarith)] at hend
          push_neg at hend
          linarith
        by_cases hcl : volt + step < stop
        · -- clamped to stop
          have hnext : clampNext stop step false volt = stop := by
            simp [clampNext, hcl]
          have hprod : 0 < (stop - volt) * step :=
            mul_pos_of_neg_of_neg (by linarith) hneg
          have hfpos : (1 : ℚ) ≤ (fuel : ℚ) := by
            have h2 : (0 : ℚ) < (fuel : ℚ) := by
              by_contra hcon
              push_neg at hcon
              nlinarith
            have h3 : 0 < fuel := by exact_mod_cast h2
            exact_mod_cast h3
          have h0' : 0 ≤ (stop - stop) * step := by ring_nf; exact le_rfl
          have hf' : (stop - stop) * step + step ^ 2 ≤ (fuel : ℚ) * step ^ 2 := by
            ring_nf
            nlinarith
          obtain ⟨l, s, heq, hmap, hhead, hchain, ⟨w, hlast, hw⟩, hall⟩ :=
            ih (k + 1) (c + 5) stop h0' hf'
          have hlt : 0 < (stop - volt) * step := hprod
          refine ⟨volt :: l, (volt, cur k) :: s, ?_, ?_, rfl, ?_, ⟨w, ?_, hw⟩, ?_⟩
          · rw [sweepLoop_noCancel_succ]
            simp only [hguard, Bool.false_eq_true, if_false, if_neg hend, hnext,
              heq]
          · simp [hmap]
          · refine List.chain'_cons'.mpr ⟨?_, hchain⟩
            intro b hb
            rw [hhead] at hb
            rcases Option.mem_some_iff.mp hb with rfl
            exact ⟨hnext.symm, hlt⟩
          · cases l with
            | nil => simp at hhead
            | cons a t => rw [List.getLast?_cons_cons]; exact hlast
          · intro v hv
            rcases List.mem_cons.mp hv with rfl | hv
            · exact h0
            · exact hall v hv
        · -- no clamp: next voltage volt + step
          have hcl' : stop ≤ volt + step := not_lt.mp hcl
          have hnext : clampNext stop step false volt = volt + step := by
            simp [clampNext, hcl]
          have h0' : 0 ≤ (stop - (volt + step)) * step := by nlinarith
          have hf' : (stop - (volt + step)) * step + step ^ 2 ≤
              (fuel : ℚ) * step ^ 2 := by nlinarith
          obtain ⟨l, s, heq, hmap, hhead, hchain, ⟨w, hlast, hw⟩, hall⟩ :=
            ih (k + 1) (c + 5) (volt + step) h0' hf'
          have hlt : 0 < ((volt + step) - volt) * step := by
            have : ((volt + step) - volt) * step = step ^ 2 := by ring
            rw [this]
            exact hsq
          refine ⟨volt :: l, (volt, cur k) :: s, ?_, ?_, rfl, ?_, ⟨w, ?_, hw⟩, ?_⟩
          · rw [sweepLoop_noCancel_succ]
            simp only [hguard, Bool.false_eq_true, if_false, if_neg hend, hnext,
              heq]
          · simp [hmap]
          · refine List.chain'_cons'.mpr ⟨?_, hchain⟩
            intro b hb
            rw [hhead] at hb
            rcases Option.mem_some_iff.mp hb with rfl
            exact ⟨hnext.symm, hlt⟩
          · cases l with
            | nil => simp at hhead
            | cons a t => rw [List.getLast?_cons_cons]; exact hlast
          · intro v hv
            rcases List.mem_cons.mp hv with rfl | hv
            · exact h0
            · exact hall v hv
    · -- ascending sweep: 0 < step
      have hd : decide (0 < step) = true := decide_eq_true hpos
      rw [hd] at ih ⊢
      have hvs : volt ≤ stop := by nlinarith
      have hguard : outOfRange stop true volt = false := by
        simp only [outOfRange, if_true, decide_eq_false_iff_not, not_lt]
        linarith
      by_cases hend : qabs (volt - stop) ≤ eps
      · refine ⟨[volt], [(volt, cur k)], ?_, by simp, rfl, by simp,
          ⟨volt, rfl, (qabs_eq_abs (volt - stop)) ▸ hend⟩, ?_⟩
        · rw [sweepLoop_noCancel_succ]
          simp [hguard, hend]
        · intro v hv
          rcases List.mem_singleton.mp hv with rfl
          exact h0
      · have habs : eps < stop - volt := by
          rw [qabs_eq_abs, abs_of_nonpos (by linarith)] at hend
          push_neg at hend
          linarith
        by_cases hcl : stop < volt + step
        · -- clamped to stop
          have hnext : clampNext stop step true volt = stop := by
            simp [clampNext, hcl]
          have hprod : 0 < (stop - volt) * step := mul_pos (by linarith) hpos
          have h0' : 0 ≤ (stop - stop) * step := by ring_nf; exact le_rfl
          have hf' : (stop - stop) * step + step ^ 2 ≤ (fuel : ℚ) * step ^ 2 := by
            have h2 : (0 : ℚ) < (fuel : ℚ) := by
              by_contra hcon
              push_neg at hcon
              nlinarith
            have h3 : (1 : ℚ) ≤ (fuel : ℚ) := by
              have : 0 < fuel := by exact_mod_cast h2
              exact_mod_cast this
            ring_nf
            nlinarith
          obtain ⟨l, s, heq, hmap, hhead, hchain, ⟨w, hlast, hw⟩, hall⟩ :=
            ih (k + 1) (c + 5) stop h0' hf'
          refine ⟨volt :: l, (volt, cur k) :: s, ?_, ?_, rfl, ?_, ⟨w, ?_, hw⟩, ?_⟩
          · rw [sweepLoop_noCancel_succ]
            simp only [hguard, Bool.false_eq_true, if_false, if_neg hend, hnext,
              heq]
          · simp [hmap]
          · refine List.chain'_cons'.mpr ⟨?_, hchain⟩
            intro b hb
            rw [hhead] at hb
            rcases Option.mem_some_iff.mp hb with rfl
            exact ⟨hnext.symm, hprod⟩
          · cases l with
            | nil => simp at hhead
            | cons a t => rw [List.getLast?_cons_cons]; exact hlast
          · intro v hv
            rcases List.mem_cons.mp hv with rfl | hv
            · exact h0
            · exact hall v hv
        · -- no clamp
          have hcl' : volt + step ≤ stop := not_lt.mp hcl
          have hnext : clampNext stop step true volt = volt + step := by
            simp [clampNext, hcl]
          have h0' : 0 ≤ (stop - (volt + step)) * step :=
            mul_nonneg (by linarith) hpos.le
          have hf' : (stop - (volt + step)) * step + step ^ 2 ≤
              (fuel : ℚ) * step ^ 2 := by nlinarith
          obtain ⟨l, s, heq, hmap, hhead, hchain, ⟨w, hlast, hw⟩, hall⟩ :=
            ih (k + 1) (c + 5) (volt + step) h0' hf'
          have hlt : 0 < ((volt + step) - volt) * step := by
            have : ((volt + step) - volt) * step = step ^ 2 := by ring
            rw [this]
            exact hsq
          refine ⟨volt :: l, (volt, cur k) :: s, ?_, ?_, rfl, ?_, ⟨w, ?_, hw⟩, ?_⟩
          · rw [sweepLoop_noCancel_succ]
            simp only [hguard, Bool.false_eq_true, if_false, if_neg hend, hnext,
              heq]
          · simp [hmap]
          · refine List.chain'_cons'.mpr ⟨?_, hchain⟩
            intro b hb
            rw [hhead] at hb
            rcases Option.mem_some_iff.mp hb with rfl
            exact ⟨hnext.symm, hlt⟩
          · cases l with
            | nil => simp at hhead
            | cons a t => rw [List.getLast?_cons_cons]; exact hlast
          · intro v hv
            rcases List.mem_cons.mp hv with rfl | hv
            · exact h0
            · exact hall v hv

/-- C1: for every sweep job whose step sign matches the direction from start
to stop, with no cancellation requested and every measurement succeeding,
the step-sweep thread terminates and emits a finite sequence of samples
whose voltages begin at start, follow the add-step-then-clamp-to-stop rule,
are strictly ordered in the sweep direction, never overshoot stop (the sign
of stop - v never flips), and end with a voltage within 1e-12 of stop; in
particular the job start 0, stop 1, step 1/2 emits exactly the voltages
0, 1/2, 1. -/
theorem c1_step_sweep_sequence (start stop step : ℚ) (cur : ℕ → ℚ)
    (hstep : step ≠ 0) (hdir : 0 ≤ (stop - start) * step) :
    (∃ fuel l s,
      step_and_measure_thread noCancel (measOK cur) start stop step fuel
          = ⟨l, s, SweepExit.completed⟩ ∧
        List.map Prod.fst s = l ∧
        l.head? = some start ∧
        List.Chain' (fun a b =>
          b = clampNext stop step (decide (0 < step)) a ∧
            0 < (b - a) * step) l ∧
        (∃ w, l.getLast? = some w ∧ |w - stop| ≤ eps) ∧
        (∀ v ∈ l, 0 ≤ (stop - v) * step)) ∧
    List.map Prod.fst (step_and_measure_thread noCancel
        (measOK (fun _ => 0)) 0 1 (1 / 2) 3).samples = [0, 1 / 2, 1] := by
  constructor
  · have hsq : (0 : ℚ) < step ^ 2 := by positivity
    set q : ℚ := ((stop - start) * step) / step ^ 2 with hq
    have hq0 : 0 ≤ q := div_nonneg hdir hsq.le
    have hceil0 : 0 ≤ ⌈q⌉ := Int.ceil_nonneg hq0
    obtain ⟨n, hn⟩ := Int.eq_ofNat_of_zero_le hceil0
    refine ⟨n + 1, ?_⟩
    have hbound : (stop - start) * step + step ^ 2 ≤
        ((n + 1 : ℕ) : ℚ) * step ^ 2 := by
      have hle : q ≤ (⌈q⌉ : ℚ) := Int.le_ceil q
      rw [hn] at hle
      push_cast at hle
      have hmul : q * step ^ 2 = (stop - start) * step := by
        rw [hq]
        exact div_mul_cancel₀ _ hsq.ne'
      push_cast
      nlinarith
    obtain ⟨l, s, heq, hrest⟩ :=
      sweepLoop_completes stop step cur hstep (n + 1) 0 0 start hdir hbound
    exact ⟨l, s, heq, hrest⟩
  · norm_num [step_and_measure_thread, sweepLoop, outOfRange, eps, qabs,
      clampNext, noCancel, measOK, retryMeasure]

theorem c1_step_sweep_sequence_witness :
    (((1 : ℚ) / 2 ≠ 0) ∧ (0 : ℚ) ≤ ((1 : ℚ) - 0) * (1 / 2)) ∧
      List.map Prod.fst (step_and_measure_thread noCancel
        (measOK (fun _ => 0)) 0 1 (1 / 2) 3).samples = [0, 1 / 2, 1] :=
  ⟨⟨by norm_num, by norm_num⟩,
    (c1_step_sweep_sequence 0 1 (1 / 2) (fun _ => 0) (by norm_num)
      (by norm_num)).2⟩

/-- C2 counterexample: at start 0, stop 1, step 0 the sign of step differs
from the sign of stop - start and start is not stop, yet the acceptance
check (stop - start) * step < 0 does not reject the job. -/
theorem c2_counterexample :
    qsign 0 ≠ qsign (1 - 0) ∧ (0 : ℚ) ≠ 1 ∧
      start_step_and_measure 0 1 0 1 ≠ none := by
  refine ⟨by norm_num [qsign], by norm_num, ?_⟩
  simp [start_step_and_measure]

/-- C2 (amended: for nonzero step): whenever step is nonzero, start differs
from stop and the sign of step differs from the sign of stop - start, the
start-sweep operation rejects the job: no sweep thread is started and no
device command is issued. -/
theorem c2_reject_mismatched_sign (start stop step hold : ℚ)
    (hstep : step ≠ 0) (hne : start ≠ stop)
    (hsign : qsign step ≠ qsign (stop - start)) :
    start_step_and_measure start stop step hold = none := by
  have hlt : (stop - start) * step < 0 := by
    rcases hstep.lt_or_lt with hneg | hpos
    · rcases lt_trichotomy (stop - start) 0 with h | h | h
      · exfalso
        apply hsign
        simp [qsign, hneg, h]
      · exact absurd (by linarith : start = stop) hne
      · exact mul_neg_of_pos_of_neg h hneg
    · rcases lt_trichotomy (stop - start) 0 with h | h | h
      · exact mul_neg_of_neg_of_pos h hpos
      · exact absurd (by linarith : start = stop) hne
      · exfalso
        apply hsign
        simp [qsign, hpos.not_lt, hpos, h.not_lt, h]
  simp [start_step_and_measure, hlt]

theorem c2_reject_mismatched_sign_witness :
    ((1 : ℚ) ≠ 0 ∧ (1 : ℚ) ≠ 0 ∧ qsign 1 ≠ qsign (0 - 1)) ∧
      start_step_and_measure 1 0 1 1 = none :=
  ⟨⟨by norm_num, by norm_num, by norm_num [qsign]⟩,
    c2_reject_mismatched_sign 1 0 1 1 (by norm_num) (by norm_num)
      (by norm_num [qsign])⟩

lemma retryMeasure_exhausts (meas : ℕ → Option ℚ) :
    ∀ (fuelR attempts c : ℕ), attempts + fuelR = 10 →
      (∀ i, i < 10 → meas i = none) →
      retryMeasure noCancel meas attempts fuelR c =
        (RetryOut.exhausted, c + fuelR) := by
  intro fuelR
  induction fuelR with
  | zero =>
    intro attempts c h10 hm
    simp [retryMeasure]
  | succ fuelR ih =>
    intro attempts c h10 hm
    have hmeas : meas attempts = none := hm attempts (by omega)
    by_cases ha : 10 ≤ attempts + 1
    · have hz : fuelR = 0 := by omega
      subst hz
      simp [retryMeasure, noCancel, hmeas, ha]
    · have hstep : retryMeasure noCancel meas attempts (fuelR + 1) c =
          retryMeasure noCancel meas (attempts + 1) fuelR (c + 1) := by
        simp [retryMeasure, noCancel, hmeas, ha]
      rw [hstep, ih (attempts + 1) (c + 1) (by omega) hm]
      simp
      omega

/-- C5: during a sweep step, a measurement returning no value is retried up
to the bounded count of 10 attempts; if all 10 attempts fail, the sweep
aborts: the current voltage is the only one commanded in this and all later
iterations, and no sample at all is emitted from this step on. -/
theorem c5_measure_retry_abort (meas : ℕ → ℕ → Option ℚ) (stop step : ℚ)
    (asc : Bool) (fuel k c : ℕ) (volt : ℚ)
    (hm : ∀ a, a < 10 → meas k a = none)
    (hg : outOfRange stop asc volt = false) :
    retryMeasure noCancel (meas k) 0 10 (c + 3) =
        (RetryOut.exhausted, c + 13) ∧
      sweepLoop noCancel meas stop step asc (fuel + 1) k c volt =
        ⟨[volt], [], SweepExit.measureFail⟩ := by
  have hr := retryMeasure_exhausts (meas k) 10 0 (c + 3) (by omega) hm
  constructor
  · rw [hr]
  · simp [sweepLoop, hg, noCancel, hr]

theorem c5_measure_retry_abort_witness :
    ((∀ a, a < 10 → (none : Option ℚ) = none) ∧
        outOfRange 1 true 0 = false) ∧
      (retryMeasure noCancel (fun _ => (none : Option ℚ)) 0 10 (0 + 3) =
          (RetryOut.exhausted, 0 + 13) ∧
        sweepLoop noCancel (fun _ _ => (none : Option ℚ)) 1 1 true (0 + 1)
          0 0 0 = ⟨[0], [], SweepExit.measureFail⟩) :=
  ⟨⟨fun _ _ => rfl, by norm_num [outOfRange, eps]⟩,
    c5_measure_retry_abort (fun _ _ => none) 1 1 true 0 0 0 0
      (fun _ _ => rfl) (by norm_num [outOfRange, eps])⟩

/-- C6: once the shared cancellation flag is set, the sweep loop exits at
its next check without commanding any further voltage or emitting any
sample; if the flag becomes set only after the iteration's voltage was
commanded, the loop exits at the next wait boundary leaving that voltage in
effect and rolling nothing back; and the poll loop exits at its next check
without emitting anything. -/
theorem c6_cancellation (cancel : ℕ → Bool) (meas : ℕ → ℕ → Option ℚ)
    (pmeas : ℕ → Option ℚ × Option ℚ) (stop step : ℚ) (asc : Bool)
    (fuel steps k i c : ℕ) (volt : ℚ)
    (hg : outOfRange stop asc volt = false) :
    ((∀ j, c ≤ j → cancel j = true) →
      sweepLoop cancel meas stop step asc (fuel + 1) k c volt =
        ⟨[], [], SweepExit.cancelled⟩) ∧
    (cancel c = false → (∀ j, c + 1 ≤ j → cancel j = true) →
      sweepLoop cancel meas stop step asc (fuel + 1) k c volt =
        ⟨[volt], [], SweepExit.cancelled⟩) ∧
    ((∀ j, c ≤ j → cancel j = true) →
      measure_loop cancel pmeas (steps + 1) i c = []) := by
  refine ⟨?_, ?_, ?_⟩
  · intro h
    simp [sweepLoop, hg, h c le_rfl]
  · intro h0 h1
    simp [sweepLoop, hg, h0, h1 (c + 1) le_rfl]
  · intro h
    simp [measure_loop, h c le_rfl]

theorem c6_cancellation_witness :
    (outOfRange 1 true 0 = false) ∧
    (((∀ j, 0 ≤ j → allCancel j = true) →
      sweepLoop allCancel (measOK (fun _ => 0)) 1 1 true (0 + 1) 0 0 0 =
        ⟨[], [], SweepExit.cancelled⟩) ∧
    (allCancel 0 = false → (∀ j, 0 + 1 ≤ j → allCancel j = true) →
      sweepLoop allCancel (measOK (fun _ => 0)) 1 1 true (0 + 1) 0 0 0 =
        ⟨[0], [], SweepExit.cancelled⟩) ∧
    ((∀ j, 0 ≤ j → allCancel j = true) →
      measure_loop allCancel (fun _ => (some 0, some 0)) (0 + 1) 0 0 =
        [])) :=
  ⟨by norm_num [outOfRange, eps],
    c6_cancellation allCancel (measOK (fun _ => 0))
      (fun _ => (some 0, some 0)) 1 1 true 0 0 0 0 0 0
      (by norm_num [outOfRange, eps])⟩

lemma sweepLoop_step_zero_stuck (cur : ℕ → ℚ) (stop start : ℚ)
    (hgt : stop + eps < start) :
    ∀ fuel k c,
      (sweepLoop noCancel (measOK cur) stop 0 false fuel k c start).exit =
        SweepExit.fuelOut := by
  have heps := eps_pos
  intro fuel
  induction fuel with
  | zero =>
    intro k c
    rfl
  | succ fuel ih =>
    intro k c
    rw [sweepLoop_noCancel_succ]
    have hguard : outOfRange stop false start = false := by
      simp only [outOfRange, Bool.false_eq_true, if_false,
        decide_eq_false_iff_not, not_lt]
      linarith
    have hend : ¬ qabs (start - stop) ≤ eps := by
      rw [qabs_eq_abs, abs_of_nonneg (by linarith)]
      push_neg
      linarith
    have hnext : clampNext stop 0 false start = start := by
      have hns : ¬ start < stop := by linarith
      simp [clampNext, hns]
    simp only [hguard, Bool.false_eq_true, if_false, if_neg hend, hnext]
    exact ih (k + 1) (c + 5)

/-- C10 counterexample: with step 0, start 0, stop 1 the acceptance check
indeed does not reject the job, but the sweep thread does not repeat the
same voltage forever: because step > 0 is false the loop is treated as
descending, its range guard fires at once, and the thread terminates
immediately, visiting no voltage at all. -/
theorem c10_counterexample :
    start_step_and_measure 0 1 0 1 ≠ none ∧
      step_and_measure_thread noCancel (measOK (fun _ => 0)) 0 1 0 1 =
        ⟨[], [], SweepExit.completed⟩ := by
  constructor
  · simp [start_step_and_measure]
  · norm_num [step_and_measure_thread, sweepLoop, outOfRange, eps]

/-- C10 (amended): if step = 0 the acceptance check never rejects the job;
when start exceeds stop by more than the tolerance the sweep thread then
repeats the same voltage forever, never terminating while measurements
succeed and no cancellation is requested; but when start is below stop the
thread instead terminates immediately, emitting no sample. -/
theorem c10_zero_step_behaviour (start stop hold : ℚ) (cur : ℕ → ℚ) :
    start_step_and_measure start stop 0 hold ≠ none ∧
      (stop + eps < start →
        ∀ fuel, (step_and_measure_thread noCancel (measOK cur) start stop 0
            fuel).exit = SweepExit.fuelOut) ∧
      (start < stop - eps →
        step_and_measure_thread noCancel (measOK cur) start stop 0 1 =
          ⟨[], [], SweepExit.completed⟩) := by
  refine ⟨?_, ?_, ?_⟩
  · simp [start_step_and_measure]
  · intro h fuel
    have hd : (decide ((0 : ℚ) < 0)) = false := by norm_num
    unfold step_and_measure_thread
    rw [hd]
    exact sweepLoop_step_zero_stuck cur stop start h fuel 0 0
  · intro h
    have hd : (decide ((0 : ℚ) < 0)) = false := by norm_num
    unfold step_and_measure_thread
    rw [hd]
    have hguard : outOfRange stop false start = true := by
      simp only [outOfRange, if_false, Bool.false_eq_true]
      exact decide_eq_true h
    rw [show (1 : ℕ) = 0 + 1 from rfl, sweepLoop_noCancel_succ]
    simp [hguard]

end SweepSched

namespace TDK

/-- C9: set_voltage, set_current and set_output return True whenever they
run — also when the serial port is closed or the underlying write faults —
because send_command absorbs every transport error and the setters never
inspect its result; the returned boolean is the same for every port state,
address and value, so it carries no information about whether the command
reached the device. -/
theorem c9_setters_always_true (p q : SerialPort) (a b : ℤ) (v w i j : ℚ)
    (s t : Bool) :
    set_voltage p a v = true ∧ set_current p a i = true ∧
      set_output p a s = true ∧
      set_voltage p a v = set_voltage q b w ∧
      set_current p a i = set_current q b j ∧
      set_output p a s = set_output q b t :=
  ⟨rfl, rfl, rfl, rfl, rfl, rfl⟩

/-- C4: when no data arrives in either wait window (or the port is closed or
the write faults), get_actual_voltage and get_actual_current return none
rather than raising; and whenever the returned response text fails to parse
as a float, the getters likewise return none. -/
theorem c4_getters_absorb_failures (p : SerialPort) (a : ℤ) :
    ((p.firstWait = none ∧ p.secondWait = none) →
      get_actual_voltage p a = none ∧ get_actual_current p a = none) ∧
    (∀ s, (send_command p a measVoltCmd true).2 = some s →
      pyFloat s = none → get_actual_voltage p a = none) ∧
    (∀ s, (send_command p a measCurrCmd true).2 = some s →
      pyFloat s = none → get_actual_current p a = none) := by
  refine ⟨?_, ?_, ?_⟩
  · rintro ⟨h1, h2⟩
    obtain ⟨o, w, f1, f2⟩ := p
    simp only at h1 h2
    subst h1
    subst h2
    cases o <;> cases w <;>
      simp [get_actual_voltage, get_actual_current, send_command]
  · intro s hs hp
    unfold get_actual_voltage
    rw [hs]
    by_cases he : s = emptyStr
    · simp [he]
    · simp [he, hp]
  · intro s hs hp
    unfold get_actual_current
    rw [hs]
    by_cases he : s = emptyStr
    · simp [he]
    · simp [he, hp]

theorem c4_getters_absorb_failures_witness :
    get_actual_voltage ⟨true, false, none, none⟩ 6 = none ∧
      get_actual_voltage ⟨true, false, some ("ERR\n"), none⟩ 6 = none :=
  ⟨((c4_getters_absorb_failures ⟨true, false, none, none⟩ 6).1
      ⟨rfl, rfl⟩).1,
    (c4_getters_absorb_failures ⟨true, false, some ("ERR\n"), none⟩ 6).2.1
      ("ERR") rfl rfl⟩

lemma digitChar_isDigit (d : ℕ) (hd : d < 10) :
    (Nat.digitChar d).isDigit = true := by
  interval_cases d <;> decide

/-- C7: with the port open and the write not faulting, send_command writes
exactly two line-terminated frames in order — the address-select frame then
the command frame with a single trailing terminator — and set_voltage sends
VOLT:AMPL x where x is the value formatted with exactly three decimal
digits after the point. -/
theorem c7_select_then_command (p : SerialPort) (a : ℤ) (c : String) (v : ℚ)
    (ho : p.is_open = true) (hw : p.writeFault = false) :
    (send_command p a c false).1 = [selectFrame a, commandFrame c] ∧
      selectFrame a = ("INSTrument:NSELect ") ++ toString a ++ nl ∧
      commandFrame c = c ++ nl ∧
      (send_command p a (voltAmplCmd v) false).1 =
        [selectFrame a, (("VOLT:AMPL ") ++ formatFixed3 v) ++ nl] ∧
      (∃ ip frac, formatFixed3 v = ip ++ (".") ++ frac ∧ frac.length = 3 ∧
        ∀ ch ∈ frac.data, ch.isDigit = true) := by
  refine ⟨?_, rfl, rfl, ?_, ?_⟩
  · simp [send_command, ho, hw]
  · simp [send_command, ho, hw, commandFrame, voltAmplCmd]
  · unfold formatFixed3
    simp only []
    set m := (roundHalfEven (v * 1000)).natAbs with hm
    set fr := String.mk
      [Nat.digitChar (m % 1000 / 100), Nat.digitChar (m % 1000 / 10 % 10),
       Nat.digitChar (m % 1000 % 10)] with hfr
    have h1 : m % 1000 / 100 < 10 := by omega
    have h2 : m % 1000 / 10 % 10 < 10 := by omega
    have h3 : m % 1000 % 10 < 10 := by omega
    have hlen : fr.length = 3 := by
      rw [hfr]
      rfl
    have hdig : ∀ ch ∈ fr.data, ch.isDigit = true := by
      intro ch hch
      rw [hfr] at hch
      have hch2 : ch ∈ [Nat.digitChar (m % 1000 / 100),
          Nat.digitChar (m % 1000 / 10 % 10),
          Nat.digitChar (m % 1000 % 10)] := hch
      simp only [List.mem_cons, List.not_mem_nil, or_false] at hch2
      rcases hch2 with rfl | rfl | rfl
      · exact digitChar_isDigit _ h1
      · exact digitChar_isDigit _ h2
      · exact digitChar_isDigit _ h3
    by_cases hn : roundHalfEven (v * 1000) < 0
    · rw [if_pos hn]
      refine ⟨("-") ++ toString (m / 1000), fr, ?_, hlen, hdig⟩
      apply String.ext
      simp [String.data_append, List.append_assoc]
    · rw [if_neg hn]
      exact ⟨toString (m / 1000), fr, rfl, hlen, hdig⟩

theorem c7_select_then_command_witness :
    ((⟨true, false, none, none⟩ : SerialPort).is_open = true ∧
      (⟨true, false, none, none⟩ : SerialPort).writeFault = false) ∧
    ((send_command ⟨true, false, none, none⟩ 6 ("*RST") false).1 =
        [selectFrame 6, commandFrame ("*RST")] ∧
      selectFrame 6 = ("INSTrument:NSELect ") ++ toString (6 : ℤ) ++ nl ∧
      commandFrame ("*RST") = ("*RST") ++ nl ∧
      (send_command ⟨true, false, none, none⟩ 6
          (voltAmplCmd (3 / 2)) false).1 =
        [selectFrame 6, (("VOLT:AMPL ") ++ formatFixed3 (3 / 2)) ++ nl] ∧
      (∃ ip frac, formatFixed3 (3 / 2) = ip ++ (".") ++ frac ∧
        frac.length = 3 ∧ ∀ ch ∈ frac.data, ch.isDigit = true)) :=
  ⟨⟨rfl, rfl⟩,
    c7_select_then_command ⟨true, false, none, none⟩ 6 ("*RST") (3 / 2)
      rfl rfl⟩

end TDK

namespace SCPI

/-- C8: encoding the command *IDN? appends exactly one line terminator, an
already terminated command is left unchanged, and decoding the simulated
response bytes KEITHLEY,MODEL 6485 followed by the terminator yields
exactly KEITHLEY,MODEL 6485; stripping the decoded string again changes
nothing, so it carries no leading or trailing whitespace or terminator. -/
theorem c8_codec_round_trip :
    send_command_frame ("*IDN?") = ("*IDN?") ++ nl ∧
      send_command_frame (("*IDN?") ++ nl) = ("*IDN?") ++ nl ∧
      read_response_decode (("KEITHLEY,MODEL 6485") ++ nl) =
        ("KEITHLEY,MODEL 6485") ∧
      pyStrip ("KEITHLEY,MODEL 6485") = ("KEITHLEY,MODEL 6485") := by
  refine ⟨by decide, by decide, by decide, by decide⟩

end SCPI


namespace Bus

lemma sendProg_cons (a : ℤ) (c : String) :
    sendProg a c = Act.acquire :: tail1 a c := rfl

lemma tail1_cons (a : ℤ) (c : String) :
    tail1 a c = Act.wr (TDK.selectFrame a) :: tail2 c := rfl

lemma tail2_cons (c : String) :
    tail2 c = Act.wr (TDK.commandFrame c) :: tail3 := rfl

lemma tail3_cons : tail3 = [Act.release] := rfl

lemma setProg_lock (s : Conf) (t : Bool) (rest : List Act) :
    (setProg s t rest).lock = s.lock := by
  cases t <;> rfl

lemma setProg_trace (s : Conf) (t : Bool) (rest : List Act) :
    (setProg s t rest).trace = s.trace := by
  cases t <;> rfl

lemma progOf_set_self (s : Conf) (t : Bool) (rest : List Act) :
    progOf (setProg s t rest) t = rest := by
  cases t <;> rfl

lemma progOf_set_other (s : Conf) (t : Bool) (rest : List Act) (u : Bool)
    (h : u ≠ t) : progOf (setProg s t rest) u = progOf s u := by
  cases t <;> cases u <;> simp_all [progOf, setProg]

lemma bool_other {t u : Bool} (h : ¬ t = u) : t = !u := by
  cases t <;> cases u <;> simp_all

lemma inv_init (addr : Bool → ℤ) (cmd : Bool → String) :
    Inv addr cmd (init addr cmd) := by
  refine ⟨[], List.nodup_nil, ?_,
    Or.inl ⟨rfl, fun t => Or.inr (by cases t <;> rfl), rfl⟩⟩
  intro t
  cases t <;> simp [init, progOf, sendProg]

lemma inv_step (addr : Bool → ℤ) (cmd : Bool → String) (s s' : Conf)
    (hinv : Inv addr cmd s) (hstep : Step s s') : Inv addr cmd s' := by
  obtain ⟨D, hnd, hmem, hcase⟩ := hinv
  cases hstep with
  | acq t rest hprog hlock =>
    rcases hcase with ⟨-, hall, htr⟩ | ⟨u, hlocku, -, -⟩
    · have hrest : tail1 (addr t) (cmd t) = rest := by
        rcases hall t with h | h
        · rw [h] at hprog
          cases hprog
        · rw [h, sendProg_cons] at hprog
          injection hprog
      refine ⟨D, hnd, ?_, Or.inr ⟨t, ?_, ?_, Or.inl ⟨?_, ?_⟩⟩⟩
      · intro w
        by_cases hw : w = t
        · subst hw
          rw [progOf_set_self]
          constructor
          · intro hin
            have hempty := (hmem w).mp hin
            rw [hempty] at hprog
            cases hprog
          · intro hval
            rw [← hrest] at hval
            simp [tail1] at hval
        · rw [progOf_set_other _ _ _ _ hw]
          exact hmem w
      · rw [setProg_lock]
      · rw [progOf_set_other _ _ _ _ (by cases t <;> simp)]
        exact hall (!t)
      · rw [progOf_set_self]
        exact hrest.symm
      · rw [setProg_trace]
        exact htr
    · rw [hlock] at hlocku
      cases hlocku
  | wr t f rest hprog =>
    rcases hcase with ⟨hlockn, hall, htr⟩ | ⟨u, hlocku, hother, hphase⟩
    · exfalso
      rcases hall t with h | h
      · rw [h] at hprog
        cases hprog
      · rw [h, sendProg_cons] at hprog
        simp at hprog
    · by_cases htu : t = u
      · subst htu
        rcases hphase with ⟨hp, ht⟩ | ⟨hp, ht⟩ | ⟨hp, ht⟩
        · -- about to write the select frame
          rw [hp, tail1_cons] at hprog
          injection hprog with h1 h2
          injection h1 with h1
          refine ⟨D, hnd, ?_, Or.inr ⟨t, ?_, ?_,
            Or.inr (Or.inl ⟨?_, ?_⟩)⟩⟩
          · intro w
            by_cases hw : w = t
            · subst hw
              rw [progOf_set_self]
              constructor
              · intro hin
                have hempty := (hmem w).mp hin
                rw [hempty] at hp
                simp [tail1] at hp
              · intro hval
                rw [← h2] at hval
                simp [tail2] at hval
            · rw [progOf_set_other _ _ _ _ hw]
              exact hmem w
          · rw [setProg_lock]
            exact hlocku
          · rw [progOf_set_other _ _ _ _ (by cases t <;> simp)]
            exact hother
          · rw [progOf_set_self]
            exact h2.symm
          · rw [setProg_trace]
            dsimp only
            rw [ht, h1]
        · -- about to write the command frame
          rw [hp, tail2_cons] at hprog
          injection hprog with h1 h2
          injection h1 with h1
          refine ⟨D, hnd, ?_, Or.inr ⟨t, ?_, ?_,
            Or.inr (Or.inr ⟨?_, ?_⟩)⟩⟩
          · intro w
            by_cases hw : w = t
            · subst hw
              rw [progOf_set_self]
              constructor
              · intro hin
                have hempty := (hmem w).mp hin
                rw [hempty] at hp
                simp [tail2] at hp
              · intro hval
                rw [← h2] at hval
                simp [tail3] at hval
            · rw [progOf_set_other _ _ _ _ hw]
              exact hmem w
          · rw [setProg_lock]
            exact hlocku
          · rw [progOf_set_other _ _ _ _ (by cases t <;> simp)]
            exact hother
          · rw [progOf_set_self]
            exact h2.symm
          · rw [setProg_trace]
            dsimp only
            rw [ht, ← h1, blockOf]
            simp [List.append_assoc]
        · rw [hp, tail3_cons] at hprog
          simp at hprog
      · exfalso
        have ht' : t = !u := bool_other htu
        rw [ht'] at hprog
        rcases hother with h | h
        · rw [h] at hprog
          cases hprog
        · rw [h, sendProg_cons] at hprog
          simp at hprog
  | rel t rest hprog hlock =>
    rcases hcase with ⟨hlockn, hall, htr⟩ | ⟨u, hlocku, hother, hphase⟩
    · exfalso
      rcases hall t with h | h
      · rw [h] at hprog
        cases hprog
      · rw [h, sendProg_cons] at hprog
        simp at hprog
    · by_cases htu : t = u
      · subst htu
        rcases hphase with ⟨hp, ht⟩ | ⟨hp, ht⟩ | ⟨hp, ht⟩
        · rw [hp, tail1_cons] at hprog
          simp at hprog
        · rw [hp, tail2_cons] at hprog
          simp at hprog
        · rw [hp, tail3_cons] at hprog
          injection hprog with h1 h2
          have htD : t ∉ D := by
            intro hin
            have hempty := (hmem t).mp hin
            rw [hempty] at hp
            simp [tail3] at hp
          refine ⟨D ++ [t], ?_, ?_, Or.inl ⟨?_, ?_, ?_⟩⟩
          · simp [List.nodup_append, hnd, htD]
          · intro w
            by_cases hw : w = t
            · subst hw
              rw [progOf_set_self, ← h2]
              simp
            · rw [progOf_set_other _ _ _ _ hw]
              rw [List.mem_append]
              simp only [List.mem_singleton, hw, or_false]
              exact hmem w
          · rw [setProg_lock]
          · intro w
            by_cases hw : w = t
            · subst hw
              rw [progOf_set_self, ← h2]
              exact Or.inl rfl
            · rw [progOf_set_other _ _ _ _ hw]
              rw [bool_other hw]
              exact hother
          · rw [setProg_trace]
            dsimp only
            rw [ht]
            simp [List.map_append, List.flatten_append]
      · exfalso
        have ht' : t = !u := bool_other htu
        rw [ht'] at hprog
        rcases hother with h | h
        · rw [h] at hprog
          cases hprog
        · rw [h, sendProg_cons] at hprog
          simp at hprog

lemma inv_reach (addr : Bool → ℤ) (cmd : Bool → String) (s : Conf)
    (h : Reach addr cmd s) : Inv addr cmd s := by
  induction h with
  | refl => exact inv_init addr cmd
  | tail hsteps hstep ih => exact inv_step addr cmd _ _ ih hstep

lemma both_mem_nodup (D : List Bool) (hnd : D.Nodup) (ht : true ∈ D)
    (hf : false ∈ D) : D = [true, false] ∨ D = [false, true] := by
  cases D with
  | nil => cases ht
  | cons a tl =>
    cases tl with
    | nil =>
      cases a
      · simp at ht
      · simp at hf
    | cons b tl2 =>
      cases tl2 with
      | nil => cases a <;> cases b <;> simp_all
      | cons c tl3 =>
        exfalso
        cases a <;> cases b <;> cases c <;> simp_all

/-- C3: when two proxies at (arbitrary) addresses share one transport whose
class-level lock serializes send_command, every complete concurrent
execution is observed by the transport as one proxy's select-then-command
block followed by the other's: each address-select frame is immediately
followed by the same proxy's command frame, and the other proxy's writes
never fall between them. -/
theorem c3_bus_lock_serializes (addr : Bool → ℤ) (cmd : Bool → String)
    (s : Conf) (hreach : Reach addr cmd s)
    (h1 : progOf s true = []) (h2 : progOf s false = []) :
    s.trace = blockOf addr cmd true ++ blockOf addr cmd false ∨
      s.trace = blockOf addr cmd false ++ blockOf addr cmd true := by
  obtain ⟨D, hnd, hmem, hcase⟩ := inv_reach addr cmd s hreach
  have htD : true ∈ D := (hmem true).mpr h1
  have hfD : false ∈ D := (hmem false).mpr h2
  rcases hcase with ⟨-, -, htr⟩ | ⟨u, -, -, hphase⟩
  · rcases both_mem_nodup D hnd htD hfD with rfl | rfl
    · left
      rw [htr]
      simp
    · right
      rw [htr]
      simp
  · exfalso
    have hu : progOf s u = [] := by
      cases u
      · exact h2
      · exact h1
    rcases hphase with ⟨hp, -⟩ | ⟨hp, -⟩ | ⟨hp, -⟩ <;>
      rw [hu] at hp <;> simp [tail1, tail2, tail3] at hp

theorem c3_bus_lock_serializes_witness :
    (Reach addrW cmdW confW ∧ progOf confW true = [] ∧
      progOf confW false = []) ∧
    (confW.trace = blockOf addrW cmdW true ++ blockOf addrW cmdW false ∨
      confW.trace = blockOf addrW cmdW false ++ blockOf addrW cmdW true) := by
  have hreach : Reach addrW cmdW confW := by
    refine Relation.ReflTransGen.head
      (Step.acq _ true (tail1 (addrW true) (cmdW true)) rfl rfl) ?_
    refine Relation.ReflTransGen.head
      (Step.wr _ true (TDK.selectFrame (addrW true)) (tail2 (cmdW true))
        rfl) ?_
    refine Relation.ReflTransGen.head
      (Step.wr _ true (TDK.commandFrame (cmdW true)) tail3 rfl) ?_
    refine Relation.ReflTransGen.head (Step.rel _ true [] rfl rfl) ?_
    refine Relation.ReflTransGen.head
      (Step.acq _ false (tail1 (addrW false) (cmdW false)) rfl rfl) ?_
    refine Relation.ReflTransGen.head
      (Step.wr _ false (TDK.selectFrame (addrW false)) (tail2 (cmdW false))
        rfl) ?_
    refine Relation.ReflTransGen.head
      (Step.wr _ false (TDK.commandFrame (cmdW false)) tail3 rfl) ?_
    refine Relation.ReflTransGen.head (Step.rel _ false [] rfl rfl) ?_
    exact Relation.ReflTransGen.refl
  exact ⟨⟨hreach, rfl, rfl⟩,
    c3_bus_lock_serializes addrW cmdW confW hreach rfl rfl⟩

end Bus
